import Mathlib

/-!
# Verification of the ReadApp2 reading-coach frontend session logic

This file gives a shallow embedding, in Lean 4, of the session-orchestration
and rendering logic of the ReadApp2 frontend (`frontend/src/App.tsx`, whose
third embedded document is `src/pages/Library.tsx`, plus `src/api/client.ts`),
and proves or refutes the frozen specification claims about it.

Strings are modelled as `List Char`.  JavaScript numbers used as indices are
modelled as `Int` where the source can produce `-1` (from `indexOf`) and as
`Nat` otherwise; audio playback times are modelled as `ℚ`.  JavaScript objects
used as maps (`Record<string, T>`, `Record<number, T>`) are modelled as
association lists in insertion order, with `{...prev, [k]: v}` modelled as
replace-first-or-append, which preserves JavaScript's key ordering semantics.
`String.prototype.toLowerCase`/`toUpperCase` are modelled by a table covering
the ASCII, Latvian, Spanish and Russian letters (a faithful restriction of
Unicode case mapping to the alphabets this application handles).
-/

namespace ReadApp

/-! ## Character-level models of the JavaScript string primitives -/

/-- Case-mapping table: each pair is (upper-case letter, lower-case letter).
Covers ASCII `A`–`Z`, the Latvian and Spanish accented letters, and the
Russian alphabet; all other characters are fixed points, as in
`String.prototype.toLowerCase` restricted to these alphabets. -/
def casePairs : List (Char × Char) :=
  [('A','a'),('B','b'),('C','c'),('D','d'),('E','e'),('F','f'),('G','g'),
   ('H','h'),('I','i'),('J','j'),('K','k'),('L','l'),('M','m'),('N','n'),
   ('O','o'),('P','p'),('Q','q'),('R','r'),('S','s'),('T','t'),('U','u'),
   ('V','v'),('W','w'),('X','x'),('Y','y'),('Z','z'),
   ('Ā','ā'),('Č','č'),('Ē','ē'),('Ģ','ģ'),('Ī','ī'),('Ķ','ķ'),('Ļ','ļ'),
   ('Ņ','ņ'),('Š','š'),('Ū','ū'),('Ž','ž'),
   ('Á','á'),('É','é'),('Í','í'),('Ó','ó'),('Ú','ú'),('Ü','ü'),('Ñ','ñ'),
   ('А','а'),('Б','б'),('В','в'),('Г','г'),('Д','д'),('Е','е'),('Ё','ё'),
   ('Ж','ж'),('З','з'),('И','и'),('Й','й'),('К','к'),('Л','л'),('М','м'),
   ('Н','н'),('О','о'),('П','п'),('Р','р'),('С','с'),('Т','т'),('У','у'),
   ('Ф','ф'),('Х','х'),('Ц','ц'),('Ч','ч'),('Ш','ш'),('Щ','щ'),('Ъ','ъ'),
   ('Ы','ы'),('Ь','ь'),('Э','э'),('Ю','ю'),('Я','я')]

/-- Model of `c.toLowerCase()` for a single character. -/
def jsLower (c : Char) : Char :=
  match casePairs.find? (fun p => p.1 = c) with
  | some p => p.2
  | none => c

/-- Model of `c.toUpperCase()` for a single character. -/
def jsUpper (c : Char) : Char :=
  match casePairs.find? (fun p => p.2 = c) with
  | some p => p.1
  | none => c

/-- The whitespace class matched by the JavaScript `\s` regex class and
trimmed by `String.prototype.trim` (restricted to the ASCII range). -/
def isWs (c : Char) : Bool :=
  c = ' ' || c = '\t' || c = '\n' || c = '\r' || c = '\x0b' || c = '\x0c'

/-- Model of `String.prototype.trim`. -/
def jsTrim (s : List Char) : List Char :=
  ((s.dropWhile isWs).reverse.dropWhile isWs).reverse

/-- Model of `escapeHtml` (App.tsx: replaces `&`, `<`, `>` by entities; the
chained `replace` calls, applied in this order, act on disjoint characters and
equal this per-character expansion). -/
def escapeHtml : List Char → List Char
  | [] => []
  | c :: rest =>
    (if c = '&' then "&amp;".data
     else if c = '<' then "&lt;".data
     else if c = '>' then "&gt;".data
     else [c]) ++ escapeHtml rest

/-- `isPre pat s` is true when `pat` occurs at the start of `s`. -/
def isPre : List Char → List Char → Bool
  | [], _ => true
  | _ :: _, [] => false
  | a :: as', b :: bs => a = b && isPre as' bs

/-- Model of `String.prototype.indexOf` (first occurrence, `none` for `-1`). -/
def jsIndexOf : List Char → List Char → Option Nat
  | _, [] => some 0
  | [], _ :: _ => none
  | c :: rest, p :: ps =>
    if isPre (p :: ps) (c :: rest) then some 0
    else (jsIndexOf rest (p :: ps)).map (· + 1)

/-- `occursIn needle hay`: `needle` appears as a contiguous substring. -/
def occursIn (needle hay : List Char) : Prop :=
  ∃ u v, hay = u ++ needle ++ v

/-- Boolean substring test, used to decide `occursIn` on concrete data. -/
def occursB (needle hay : List Char) : Bool :=
  (jsIndexOf hay needle).isSome

theorem isPre_iff {pat s : List Char} : isPre pat s = true ↔ ∃ r, s = pat ++ r := by
  induction pat generalizing s with
  | nil => simp [isPre]
  | cons a as' ih =>
    cases s with
    | nil => simp [isPre]
    | cons b bs =>
      simp only [isPre, Bool.and_eq_true, decide_eq_true_eq, ih]
      constructor
      · rintro ⟨rfl, r, rfl⟩; exact ⟨r, rfl⟩
      · rintro ⟨r, h⟩
        injection h with h1 h2
        exact ⟨h1.symm, r, h2⟩

theorem jsIndexOf_sound {hay pat : List Char} {i : Nat}
    (h : jsIndexOf hay pat = some i) : ∃ u v, hay = u ++ pat ++ v ∧ u.length = i := by
  induction hay generalizing i with
  | nil =>
    cases pat with
    | nil => simp [jsIndexOf] at h; exact ⟨[], [], by simp, by simp [← h]⟩
    | cons p ps => simp [jsIndexOf] at h
  | cons c rest ih =>
    cases pat with
    | nil => simp [jsIndexOf] at h; exact ⟨[], c :: rest, by simp, by simp [← h]⟩
    | cons p ps =>
      by_cases hp : isPre (p :: ps) (c :: rest) = true
      · rw [jsIndexOf, if_pos hp] at h
        obtain ⟨r, hr⟩ := isPre_iff.mp hp
        exact ⟨[], r, by simp [hr], by simp [← Option.some_inj.mp h]⟩
      · rw [jsIndexOf, if_neg hp] at h
        cases hj : jsIndexOf rest (p :: ps) with
        | none => rw [hj] at h; simp at h
        | some j =>
          rw [hj] at h; simp at h
          obtain ⟨u, v, huv, hlen⟩ := ih hj
          exact ⟨c :: u, v, by simp [huv], by simp [hlen, ← h]⟩

theorem occursIn_of_occursB {needle hay : List Char}
    (h : occursB needle hay = true) : occursIn needle hay := by
  unfold occursB at h
  cases hj : jsIndexOf hay needle with
  | none => rw [hj] at h; simp at h
  | some i =>
    obtain ⟨u, v, huv, _⟩ := jsIndexOf_sound hj
    exact ⟨u, v, huv⟩

/-! ## The HTML fragments inserted by `buildFragmentHtml` itself -/

/-- `<span class="audio-highlight">` (App.tsx line 569). -/
def audioOpen : List Char := "<span class=\"audio-highlight\">".data

/-- `<span class="hl-correct">` (App.tsx line 605, `correct` case). -/
def hlCorrectTag : List Char := "<span class=\"hl-correct\">".data

/-- `<span class="hl-wrong">` (App.tsx line 605, incorrect case). -/
def hlWrongTag : List Char := "<span class=\"hl-wrong\">".data

/-- `<span class="seq-word">` (App.tsx line 623). -/
def seqOpen : List Char := "<span class=\"seq-word\">".data

/-- `</span>`. -/
def spanClose : List Char := "</span>".data

/-- `<br />` (App.tsx lines 578 and 618). -/
def brTag : List Char := "<br />".data

/-- The highlight span opener chosen by `highlight.correct`
(App.tsx line 605). -/
def hlOpen (correct : Bool) : List Char :=
  if correct then hlCorrectTag else hlWrongTag

/-- Model of `html.replace(/\n/g, '<br />')`. -/
def newlineToBr : List Char → List Char
  | [] => []
  | c :: rest => (if c = '\n' then brTag else [c]) ++ newlineToBr rest

/-- `lowerMatches pat s`: the case-insensitive literal `pat` matches at the
start of `s` (both sides compared through `jsLower`, as the `'i'` regex flag
does). -/
def lowerMatches (pat s : List Char) : Prop :=
  pat.length ≤ s.length ∧ (s.take pat.length).map jsLower = pat.map jsLower

instance (pat s : List Char) : Decidable (lowerMatches pat s) := by
  unfold lowerMatches; infer_instance

/-- Fuel-driven scanner for
`html.replace(new RegExp(escapeRegExp(pat), 'gi'), '<span ...>$&</span>')`:
left to right, at each position the case-insensitive literal `pat` either
matches (the matched original characters are wrapped in `opn`/`cls` and the
scan resumes after the match, as a global regex does) or the character is
copied.  `fuel ≥ s.length` makes the recursion total; `replaceCI` supplies
that fuel. -/
def replaceCIAux (pat opn cls : List Char) : Nat → List Char → List Char
  | 0, s => s
  | _ + 1, [] => []
  | fuel + 1, c :: rest =>
    if pat ≠ [] ∧ lowerMatches pat (c :: rest) then
      opn ++ (c :: rest).take pat.length ++ cls ++
        replaceCIAux pat opn cls fuel ((c :: rest).drop pat.length)
    else
      c :: replaceCIAux pat opn cls fuel rest

/-- Model of a global case-insensitive literal replacement wrapping each
match in `opn`/`cls` (App.tsx lines 621-624). -/
def replaceCI (pat opn cls s : List Char) : List Char :=
  replaceCIAux pat opn cls s.length s

/-- `SEQUENCE_WORDS` (App.tsx lines 530-535), with the languages as an
inductive type.  The non-English strings are copied byte-for-byte from the
source file (which stores them in a doubly-encoded form). -/
inductive Lang where
  | English | Latvian | Spanish | Russian
deriving DecidableEq

def SEQUENCE_WORDS : Lang → List String
  | .English => ["then", "after that", "later", "finally"]
  | .Latvian => ["pƒìc tam", "un tad", "vƒìlƒÅk"]
  | .Spanish => ["luego", "despu√©s", "m√°s tarde"]
  | .Russian => ["–ø–æ—Ç–æ–º", "–∑–∞—Ç–µ–º", "–ø–æ—Å–ª–µ —ç—Ç–æ–≥–æ"]

/-- The sequence-word pass: for each word of the active language, in order,
wrap its case-insensitive occurrences in a `seq-word` span (App.tsx
lines 620-624; the pattern is `escapeRegExp(escapeHtml(seq))`, a literal). -/
def seqPass (lang : Lang) (html : List Char) : List Char :=
  (SEQUENCE_WORDS lang).foldl
    (fun h w => replaceCI (escapeHtml w.data) seqOpen spanClose h) html

/-- `HighlightMeta` (App.tsx line 522): the snippet to highlight and whether
the answer was correct. -/
structure HighlightMeta where
  text : String
  correct : Bool
deriving DecidableEq

/-- `WordTiming` (client.ts lines 62-66).  The source field `end` is a Lean
keyword and is rendered here as `endTime`. -/
structure WordTiming where
  word : String
  start : ℚ
  endTime : ℚ
deriving DecidableEq

/-- Split a string into maximal runs of whitespace / non-whitespace
characters, in order.  This models `working.split(/(\s+)/)` followed by the
loop of App.tsx lines 559-576, which drops empty segments and treats each
whitespace capture and each word as one unit. -/
def splitRuns : List Char → List (List Char)
  | [] => []
  | c :: rest =>
    match splitRuns rest with
    | [] => [[c]]
    | r :: rs =>
      match r with
      | [] => [c] :: rs
      | d :: _ => if isWs c = isWs d then (c :: r) :: rs else [c] :: r :: rs

/-- The word-timing rendering loop (App.tsx lines 555-578): whitespace runs
are escaped and copied, each word is escaped, and the word whose running
index equals `currentWordIndex` is wrapped in the `audio-highlight` span. -/
def buildAudio : List (List Char) → Nat → Int → List Char
  | [], _, _ => []
  | run :: rest, wi, cur =>
    match run with
    | [] => buildAudio rest wi cur
    | d :: _ =>
      if isWs d then escapeHtml run ++ buildAudio rest wi cur
      else
        (if (wi : Int) = cur then audioOpen ++ escapeHtml run ++ spanClose
         else escapeHtml run) ++ buildAudio rest (wi + 1) cur

/-- Strip a trailing run of the characters of the class `[.,!?‚Ä¶]`
(App.tsx line 593; the last three characters are copied verbatim from the
source file). -/
def isStripPunct (c : Char) : Bool :=
  c = '.' || c = ',' || c = '!' || c = '?' || c = '‚' || c = 'Ä' || c = '¶'

def stripTrailPunct (s : List Char) : List Char :=
  (s.reverse.dropWhile isStripPunct).reverse

/-- The snippet-locating logic of App.tsx lines 584-597 on an already
case-adjusted snippet: trim it; search for it case-insensitively; if absent,
strip trailing punctuation and retry only when at least 3 characters
remain. -/
def highlightIndex (working snRaw : List Char) : Option Nat :=
  let snippet := jsTrim snRaw
  if snippet.length = 0 then none
  else
    let workingLower := working.map jsLower
    let snippetLower := snippet.map jsLower
    match jsIndexOf workingLower snippetLower with
    | some i => some i
    | none =>
      let stripped := stripTrailPunct snippetLower
      if 3 ≤ stripped.length then jsIndexOf workingLower stripped else none

/-- The answer-highlighting branch of `buildFragmentHtml` (App.tsx
lines 581-626): mark the located snippet (slicing with the unstripped
snippet's length), or escape the whole text when there is nothing to mark;
then replace newlines and run the sequence-word pass. -/
def answerHtml (working : List Char) (lang : Lang) (highlight : Option HighlightMeta)
    (uppercase : Bool) : List Char :=
  let working2 :=
    match highlight with
    | none => escapeHtml working
    | some h =>
      if h.text = "" then escapeHtml working
      else
        let snRaw := if uppercase then h.text.data.map jsUpper else h.text.data
        let snippet := jsTrim snRaw
        match highlightIndex working snRaw with
        | some i =>
          escapeHtml (working.take i) ++ hlOpen h.correct ++
            escapeHtml ((working.drop i).take snippet.length) ++ spanClose ++
            escapeHtml (working.drop (i + snippet.length))
        | none => escapeHtml working
  seqPass lang (newlineToBr working2)

/-- Model of `buildFragmentHtml` (App.tsx lines 542-627). -/
def buildFragmentHtml (text : List Char) (lang : Lang) (highlight : Option HighlightMeta)
    (uppercase : Bool) (wordTimings : List WordTiming) (currentWordIndex : Int) :
    List Char :=
  if text = [] then []
  else
    let working := if uppercase then text.map jsUpper else text
    if wordTimings ≠ [] ∧ 0 ≤ currentWordIndex then
      newlineToBr (buildAudio (splitRuns working) 0 currentWordIndex)
    else
      answerHtml working lang highlight uppercase

/-! ## Markup-safety predicate

`Seg A s` says the string `s` is a concatenation of markup-free characters
(never `<` or `>`) and verbatim copies of tags drawn from `A`.  A string
satisfying `Seg A` can contain no HTML tag other than the members of `A`:
every `<` in it begins one of them and every `>` lies inside one of them. -/

inductive Seg (A : List (List Char)) : List Char → Prop
  | nil : Seg A []
  | chunk {c : Char} {s : List Char} :
      c ≠ '<' → c ≠ '>' → Seg A s → Seg A (c :: s)
  | tag {t s : List Char} : t ∈ A → Seg A s → Seg A (t ++ s)

/-- Shape facts about a tag alphabet: every tag starts with `<`, every
non-empty suffix of a tag contains a `>` (the tag's final character), and a
tag contains `<` only at its head. -/
def tagsOk (A : List (List Char)) : Prop :=
  ∀ t ∈ A, t.head? = some '<' ∧ (∀ j < t.length, '>' ∈ t.drop j) ∧
    ∀ c ∈ t.drop 1, c ≠ '<'

/-- Conditions on a search pattern under which the sequence-word replacement
cannot touch any tag of `A`: the pattern is non-empty, none of its characters
case-fold onto `<` or `>`, and it has no case-insensitive occurrence inside
any tag. -/
def patOk (A : List (List Char)) (pat : List Char) : Prop :=
  pat ≠ [] ∧ (∀ c ∈ pat, jsLower c ≠ '<' ∧ jsLower c ≠ '>') ∧
    ∀ t ∈ A, ∀ j < t.length, ¬ lowerMatches pat (t.drop j)

theorem seg_append {A : List (List Char)} {a b : List Char}
    (ha : Seg A a) (hb : Seg A b) : Seg A (a ++ b) := by
  induction ha with
  | nil => simpa using hb
  | chunk h1 h2 _ ih => exact Seg.chunk h1 h2 ih
  | tag ht _ ih => rw [List.append_assoc]; exact Seg.tag ht ih

theorem seg_of_noAngles {A : List (List Char)} {s : List Char}
    (h : ∀ c ∈ s, c ≠ '<' ∧ c ≠ '>') : Seg A s := by
  induction s with
  | nil => exact Seg.nil
  | cons c rest ih =>
    exact Seg.chunk (h c (by simp)).1 (h c (by simp)).2
      (ih fun d hd => h d (by simp [hd]))

theorem escapeHtml_noAngles {s : List Char} :
    ∀ c ∈ escapeHtml s, c ≠ '<' ∧ c ≠ '>' := by
  induction s with
  | nil => simp [escapeHtml]
  | cons c rest ih =>
    intro d hd
    rw [escapeHtml] at hd
    rcases List.mem_append.mp hd with h | h
    · by_cases h1 : c = '&'
      · simp [h1] at h; rcases h with h | h | h | h | h <;> simp [h]
      · by_cases h2 : c = '<'
        · simp [h1, h2] at h; rcases h with h | h | h | h <;> simp [h]
        · by_cases h3 : c = '>'
          · simp [h1, h2, h3] at h; rcases h with h | h | h | h <;> simp [h]
          · simp [h1, h2, h3] at h; subst h; exact ⟨h2, h3⟩
    · exact ih d h

theorem seg_escapeHtml {A : List (List Char)} {s : List Char} :
    Seg A (escapeHtml s) :=
  seg_of_noAngles escapeHtml_noAngles

theorem newlineToBr_append {a b : List Char} :
    newlineToBr (a ++ b) = newlineToBr a ++ newlineToBr b := by
  induction a with
  | nil => simp [newlineToBr]
  | cons c rest ih => simp [newlineToBr, ih]

theorem newlineToBr_of_no_newline {t : List Char} (h : '\n' ∉ t) :
    newlineToBr t = t := by
  induction t with
  | nil => rfl
  | cons c rest ih =>
    rw [newlineToBr, if_neg (fun hc => h (by simp [hc])), ih (fun hc => h (by simp [hc]))]
    rfl

theorem seg_newlineToBr {A : List (List Char)} {s : List Char}
    (hbr : brTag ∈ A) (hnl : ∀ t ∈ A, '\n' ∉ t) (hs : Seg A s) :
    Seg A (newlineToBr s) := by
  induction hs with
  | nil => exact Seg.nil
  | @chunk c s' h1 h2 _ ih =>
    rw [newlineToBr]
    by_cases hc : c = '\n'
    · rw [if_pos hc]; exact Seg.tag hbr ih
    · rw [if_neg hc]; exact Seg.chunk h1 h2 ih
  | @tag t s' ht _ ih =>
    rw [newlineToBr_append, newlineToBr_of_no_newline (hnl t ht)]
    exact Seg.tag ht ih

theorem jsLower_eq_lt {c : Char} (h : jsLower c = '<') : c = '<' := by
  unfold jsLower at h
  cases hf : casePairs.find? (fun p => p.1 = c) with
  | none => rw [hf] at h; exact h
  | some p =>
    rw [hf] at h
    have hp : p ∈ casePairs := List.mem_of_find?_eq_some hf
    have hall : ∀ q ∈ casePairs, q.2 ≠ '<' := by decide
    exact absurd h (hall p hp)

theorem jsLower_eq_gt {c : Char} (h : jsLower c = '>') : c = '>' := by
  unfold jsLower at h
  cases hf : casePairs.find? (fun p => p.1 = c) with
  | none => rw [hf] at h; exact h
  | some p =>
    rw [hf] at h
    have hp : p ∈ casePairs := List.mem_of_find?_eq_some hf
    have hall : ∀ q ∈ casePairs, q.2 ≠ '>' := by decide
    exact absurd h (hall p hp)

theorem lowerMatches_cons {p c : Char} {ps s : List Char}
    (h : lowerMatches (p :: ps) (c :: s)) :
    jsLower c = jsLower p ∧ lowerMatches ps s := by
  obtain ⟨hlen, hmap⟩ := h
  simp only [List.length_cons, List.take_succ_cons, List.map_cons] at hlen hmap
  refine ⟨by injection hmap, Nat.succ_le_succ_iff.mp hlen, by injection hmap⟩

/-- If a case-insensitive match of an angle-free pattern starts at the head
of a `Seg` string, it covers only safe characters and the remainder of the
string is still a `Seg` string. -/
theorem seg_drop_of_lowerMatches {A : List (List Char)} (hA : tagsOk A) :
    ∀ (pat s : List Char),
      (∀ c ∈ pat, jsLower c ≠ '<' ∧ jsLower c ≠ '>') →
      lowerMatches pat s → Seg A s →
      (∀ c ∈ s.take pat.length, c ≠ '<' ∧ c ≠ '>') ∧ Seg A (s.drop pat.length) := by
  intro pat
  induction pat with
  | nil => intro s _ _ hs; exact ⟨by simp, by simpa using hs⟩
  | cons p ps ih =>
    intro s hangle hm hs
    induction hs with
    | nil => exact absurd hm.1 (by simp)
    | @chunk c s' h1 h2 hs' _ =>
      obtain ⟨hc, hm'⟩ := lowerMatches_cons hm
      have := ih s' (fun d hd => hangle d (by simp [hd])) hm' hs'
      refine ⟨?_, by simpa using this.2⟩
      intro d hd
      simp only [List.length_cons, List.take_succ_cons, List.mem_cons] at hd
      rcases hd with rfl | hd
      · exact ⟨h1, h2⟩
      · exact this.1 d hd
    | @tag t s' ht hs' _ =>
      obtain ⟨hhead, _, _⟩ := hA t ht
      cases t with
      | nil => simp at hhead
      | cons a t'' =>
        have ha : a = '<' := by simpa using hhead
        subst ha
        have hc : jsLower '<' = jsLower p := (lowerMatches_cons (by simpa using hm)).1
        have hp : jsLower p = '<' := hc.symm.trans (by decide)
        exact absurd hp (hangle p (by simp)).1

/-- An `patOk` pattern has no case-insensitive match starting anywhere inside
a tag, whatever follows the tag. -/
theorem not_lowerMatches_in_tag {A : List (List Char)} {pat t rest : List Char} {j : Nat}
    (hA : tagsOk A) (hp : patOk A pat) (ht : t ∈ A) (hj : j < t.length) :
    ¬ lowerMatches pat (t.drop j ++ rest) := by
  intro hm
  obtain ⟨-, hangle, hfree⟩ := hp
  by_cases hcase : pat.length ≤ (t.drop j).length
  · refine hfree t ht j hj ⟨hcase, ?_⟩
    have := hm.2
    rw [List.take_append_eq_append_take, Nat.sub_eq_zero_of_le hcase] at this
    simpa using this
  · push_neg at hcase
    have hgt : '>' ∈ (t.drop j ++ rest).take pat.length := by
      rw [List.take_append_eq_append_take,
        List.take_of_length_le (Nat.le_of_lt hcase)]
      exact List.mem_append.mpr (Or.inl ((hA t ht).2.1 j hj))
    have : jsLower '>' ∈ (pat.map jsLower) := by
      rw [← hm.2]
      exact List.mem_map.mpr ⟨'>', hgt, rfl⟩
    rw [show jsLower '>' = '>' from by decide] at this
    obtain ⟨c, hc, hcl⟩ := List.mem_map.mp this
    exact absurd hcl (hangle c hc).2

/-- If no match starts at any position of `u`, the replacement scanner copies
`u` verbatim and continues on `rest`. -/
theorem replaceCIAux_skip {pat opn cls : List Char} :
    ∀ (u : List Char) (fuel : Nat) (rest : List Char),
      (∀ j < u.length, ¬ lowerMatches pat (u.drop j ++ rest)) →
      u.length ≤ fuel →
      replaceCIAux pat opn cls fuel (u ++ rest) =
        u ++ replaceCIAux pat opn cls (fuel - u.length) rest := by
  intro u
  induction u with
  | nil => intro fuel rest _ _; simp
  | cons c u' ih =>
    intro fuel rest hnm hfuel
    cases fuel with
    | zero => simp at hfuel
    | succ f =>
      have h0 : ¬ lowerMatches pat (c :: (u' ++ rest)) := by
        have := hnm 0 (by simp)
        simpa using this
      rw [List.cons_append, replaceCIAux, if_neg (fun h => h0 h.2),
        ih f rest (fun j hj => by simpa using hnm (j + 1) (by simpa using hj))
          (Nat.succ_le_succ_iff.mp hfuel)]
      simp [Nat.succ_sub_succ]

/-- The replacement scanner preserves the markup-safety predicate. -/
theorem seg_replaceCIAux {A : List (List Char)} {pat opn cls : List Char} (hA : tagsOk A)
    (hopn : opn ∈ A) (hcls : cls ∈ A) (hp : patOk A pat) :
    ∀ (fuel : Nat) (s : List Char), s.length ≤ fuel → Seg A s →
      Seg A (replaceCIAux pat opn cls fuel s) := by
  intro fuel
  induction fuel using Nat.strong_induction_on with
  | _ fuel ih =>
    intro s hlen hs
    cases hs with
    | nil =>
      cases fuel with
      | zero => exact Seg.nil
      | succ f => exact Seg.nil
    | @chunk c s' h1 h2 hs' =>
      cases fuel with
      | zero => simp at hlen
      | succ f =>
        rw [replaceCIAux]
        by_cases hcond : pat ≠ [] ∧ lowerMatches pat (c :: s')
        · rw [if_pos hcond]
          have hdrop := seg_drop_of_lowerMatches hA pat (c :: s') hp.2.1 hcond.2
            (Seg.chunk h1 h2 hs')
          have hpat1 : 1 ≤ pat.length := by
            cases hpn : pat with
            | nil => exact absurd hpn hcond.1
            | cons a l => simp [hpn]
          simp only [List.append_assoc]
          refine Seg.tag hopn (seg_append (seg_of_noAngles hdrop.1) (Seg.tag hcls ?_))
          refine ih f (Nat.lt_succ_self f) _ ?_ hdrop.2
          have hlen2 : s'.length + 1 ≤ f + 1 := by simpa using hlen
          have : ((c :: s').drop pat.length).length = (s'.length + 1) - pat.length := by
            simp
          rw [this]
          omega
        · rw [if_neg hcond]
          have hlen2 : s'.length ≤ f := by
            simp only [List.length_cons] at hlen
            omega
          exact Seg.chunk h1 h2 (ih f (Nat.lt_succ_self f) s' hlen2 hs')
    | @tag t s' ht hs' =>
      have htne : t ≠ [] := by
        intro h
        have := (hA t ht).1
        rw [h] at this
        simp at this
      have ht1 : 1 ≤ t.length := by
        cases htn : t with
        | nil => exact absurd htn htne
        | cons a l => simp [htn]
      have hlen' : t.length + s'.length ≤ fuel := by
        simpa using hlen
      rw [replaceCIAux_skip t fuel s'
        (fun j hj => not_lowerMatches_in_tag hA hp ht hj) (by omega)]
      exact Seg.tag ht (ih (fuel - t.length) (by omega) s' (by omega) hs')

/-- The replacement wrapper preserves the markup-safety predicate. -/
theorem seg_replaceCI {A : List (List Char)} {pat opn cls s : List Char} (hA : tagsOk A)
    (hopn : opn ∈ A) (hcls : cls ∈ A) (hp : patOk A pat) (hs : Seg A s) :
    Seg A (replaceCI pat opn cls s) :=
  seg_replaceCIAux hA hopn hcls hp s.length s le_rfl hs

theorem seg_foldl_replaceCI {A : List (List Char)} (hA : tagsOk A)
    (hopn : seqOpen ∈ A) (hcls : spanClose ∈ A) :
    ∀ (ws : List String) (s : List Char),
      (∀ w ∈ ws, patOk A (escapeHtml w.data)) → Seg A s →
      Seg A (ws.foldl (fun h w => replaceCI (escapeHtml w.data) seqOpen spanClose h) s) := by
  intro ws
  induction ws with
  | nil => intro s _ hs; simpa using hs
  | cons w ws' ih =>
    intro s hw hs
    simp only [List.foldl_cons]
    exact ih _ (fun w' hw' => hw w' (by simp [hw']))
      (seg_replaceCI hA hopn hcls (hw w (by simp)) hs)

/-- The whole sequence-word pass preserves the markup-safety predicate. -/
theorem seg_seqPass {A : List (List Char)} {lang : Lang} {s : List Char}
    (hA : tagsOk A) (hopn : seqOpen ∈ A) (hcls : spanClose ∈ A)
    (hw : ∀ w ∈ SEQUENCE_WORDS lang, patOk A (escapeHtml w.data))
    (hs : Seg A s) : Seg A (seqPass lang s) :=
  seg_foldl_replaceCI hA hopn hcls (SEQUENCE_WORDS lang) s hw hs

/-- All HTML fragments that `buildFragmentHtml` itself can insert. -/
def allowedTags : List (List Char) :=
  [audioOpen, hlCorrectTag, hlWrongTag, seqOpen, spanClose, brTag]

/-- The fragments inserted on the no-highlight rendering path. -/
def plainTags : List (List Char) := [seqOpen, spanClose, brTag]

theorem tagsOk_allowedTags : tagsOk allowedTags := by unfold tagsOk; decide

theorem tagsOk_plainTags : tagsOk plainTags := by unfold tagsOk; decide

theorem no_newline_allowedTags : ∀ t ∈ allowedTags, '\n' ∉ t := by decide

theorem no_newline_plainTags : ∀ t ∈ plainTags, '\n' ∉ t := by decide

theorem patOk_mono {A A' : List (List Char)} {pat : List Char}
    (hsub : ∀ t ∈ A', t ∈ A) (h : patOk A pat) : patOk A' pat :=
  ⟨h.1, h.2.1, fun t ht => h.2.2 t (hsub t ht)⟩

theorem seqWordsOk :
    ∀ lang : Lang, ∀ w ∈ SEQUENCE_WORDS lang, patOk allowedTags (escapeHtml w.data) := by
  intro lang; cases lang <;> (unfold patOk; decide)

theorem seqWordsOk_plain :
    ∀ lang : Lang, ∀ w ∈ SEQUENCE_WORDS lang, patOk plainTags (escapeHtml w.data) :=
  fun lang w hw => patOk_mono (by decide) (seqWordsOk lang w hw)

/-- The word-timing rendering loop only produces safe characters and its own
`audio-highlight` spans. -/
theorem seg_buildAudio {A : List (List Char)} (hopn : audioOpen ∈ A)
    (hcls : spanClose ∈ A) :
    ∀ (runs : List (List Char)) (wi : Nat) (cur : Int),
      Seg A (buildAudio runs wi cur) := by
  intro runs
  induction runs with
  | nil => intro wi cur; exact Seg.nil
  | cons run rest ih =>
    intro wi cur
    rw [buildAudio.eq_def]
    cases run with
    | nil => exact ih wi cur
    | cons d ds =>
      by_cases hd : isWs d = true
      · simp only [hd, if_pos]
        exact seg_append seg_escapeHtml (ih wi cur)
      · simp only [hd]
        by_cases hw : (wi : Int) = cur
        · simp only [if_pos hw, if_neg hd]
          simp only [List.append_assoc]
          exact Seg.tag hopn (seg_append seg_escapeHtml (Seg.tag hcls (ih (wi + 1) cur)))
        · simp only [if_neg hw, if_neg hd]
          exact seg_append seg_escapeHtml (ih (wi + 1) cur)

/-- The answer-highlighting path produces only safe characters and tags of
the given alphabet. -/
theorem seg_answerHtml {working : List Char} {lang : Lang}
    {highlight : Option HighlightMeta} {uppercase : Bool} :
    Seg allowedTags (answerHtml working lang highlight uppercase) := by
  unfold answerHtml
  refine seg_seqPass tagsOk_allowedTags (by decide) (by decide) (seqWordsOk lang) ?_
  refine seg_newlineToBr (by decide) no_newline_allowedTags ?_
  cases highlight with
  | none => exact seg_escapeHtml
  | some h =>
    by_cases h0 : h.text = ""
    · simp only [h0, if_pos]
      exact seg_escapeHtml
    · simp only [h0, if_neg]
      cases highlightIndex working (if uppercase then h.text.data.map jsUpper else h.text.data) with
      | none => simp only; exact seg_escapeHtml
      | some i =>
        simp only [List.append_assoc]
        refine seg_append seg_escapeHtml ?_
        refine ?_
        cases hc : h.correct with
        | true =>
          refine Seg.tag (show hlOpen true ∈ allowedTags by decide) ?_
          exact seg_append seg_escapeHtml (Seg.tag (by decide) seg_escapeHtml)
        | false =>
          refine Seg.tag (show hlOpen false ∈ allowedTags by decide) ?_
          exact seg_append seg_escapeHtml (Seg.tag (by decide) seg_escapeHtml)

/-- A markup-safe string contains no occurrence of a tag-shaped needle that
is prefix-incompatible with every allowed tag. -/
theorem seg_not_occursIn {A : List (List Char)} {N s : List Char}
    (hN : N.head? = some '<')
    (hcomp : ∀ t ∈ A, isPre N t = false ∧ isPre t N = false)
    (hA : tagsOk A) (hs : Seg A s) : ¬ occursIn N s := by
  induction hs with
  | nil =>
    rintro ⟨u, v, huv⟩
    have : N = [] := by
      rcases List.append_eq_nil.mp huv.symm with ⟨h1, -⟩
      exact (List.append_eq_nil.mp h1).2
    rw [this] at hN
    simp at hN
  | @chunk c s' h1 h2 hs' ih =>
    rintro ⟨u, v, huv⟩
    rw [List.append_assoc] at huv
    cases u with
    | nil =>
      cases N with
      | nil => simp at hN
      | cons n ns =>
        have hn : n = '<' := by simpa using hN
        simp only [List.nil_append, List.cons_append] at huv
        injection huv with hc _
        exact h1 (hc.trans hn)
    | cons a u' =>
      simp only [List.cons_append] at huv
      injection huv with _ htail
      exact ih ⟨u', v, by rw [htail, List.append_assoc]⟩
  | @tag t s' ht hs' ih =>
    rintro ⟨u, v, huv⟩
    rw [List.append_assoc] at huv
    rcases List.append_eq_append_iff.mp huv with ⟨w, hw1, hw2⟩ | ⟨w, hw1, hw2⟩
    · exact ih ⟨w, v, by rw [hw2, List.append_assoc]⟩
    · cases w with
      | nil =>
        simp only [List.append_nil] at hw1
        subst hw1
        simp only [List.nil_append] at hw2
        exact ih ⟨[], v, by rw [← hw2]; simp⟩
      | cons e c'' =>
        cases u with
        | nil =>
          simp only [List.nil_append] at hw1
          rcases List.append_eq_append_iff.mp hw2 with ⟨w2, hx1, _⟩ | ⟨w2, hx1, _⟩
          · refine absurd ?_ (by simp [(hcomp t ht).1] :
              ¬ isPre N t = true)
            rw [isPre_iff]
            exact ⟨w2, by rw [hw1, hx1]⟩
          · refine absurd ?_ (by simp [(hcomp t ht).2] :
              ¬ isPre t N = true)
            rw [isPre_iff]
            exact ⟨w2, by rw [← hw1] at hx1; exact hx1⟩
        | cons a u'' =>
          cases N with
          | nil => simp at hN
          | cons n ns =>
            have hn : n = '<' := by simpa using hN
            have he : e = '<' := by
              simp only [List.cons_append] at hw2
              injection hw2 with h _
              rw [← h, hn]
            have hmem : '<' ∈ t.drop 1 := by
              rw [hw1]
              simp only [List.cons_append, List.drop_succ_cons, List.drop_zero]
              exact List.mem_append.mpr (Or.inr (by simp [he]))
            exact absurd rfl ((hA t ht).2.2 '<' hmem)

/-- The no-highlight rendering pipeline (escape, line breaks, sequence
words), shared by several rendering paths of `buildFragmentHtml`. -/
def plainRender (lang : Lang) (text : List Char) : List Char :=
  seqPass lang (newlineToBr (escapeHtml text))

theorem seg_plainRender {lang : Lang} {text : List Char} :
    Seg plainTags (plainRender lang text) :=
  seg_seqPass tagsOk_plainTags (by decide) (by decide) (seqWordsOk_plain lang)
    (seg_newlineToBr (by decide) no_newline_plainTags seg_escapeHtml)

/-! ## Session-orchestrator state model (`Library` component of App.tsx)

JavaScript objects used as maps are modelled as association lists in key
insertion order; `{...prev, [k]: v}` replaces the first binding of `k` or
appends a new one, exactly as JavaScript updates preserve key order. -/

def assocLookup {κ ν : Type} [DecidableEq κ] : List (κ × ν) → κ → Option ν
  | [], _ => none
  | (k, e) :: rest, key => if k = key then some e else assocLookup rest key

def assocUpsert {κ ν : Type} [DecidableEq κ] : List (κ × ν) → κ → ν → List (κ × ν)
  | [], key, e => [(key, e)]
  | (k, e0) :: rest, key, e =>
    if k = key then (key, e) :: rest else (k, e0) :: assocUpsert rest key e

/-- The result of `POST /qa/evaluate` as consumed by the component
(client.ts lines 34-44; the optional `rate_limited` field is `false` when
absent). -/
structure EvalResult where
  feedback : String
  correct_snippet : String
  correct : Bool
  rate_limited : Bool
deriving DecidableEq

/-- The `lastResult` state (App.tsx line 650). -/
inductive LastResult where
  | idle | correct | incorrect | rateLimited
deriving DecidableEq

/-- The `textMode` state (App.tsx line 645). -/
inductive TextMode where
  | original | simple
deriving DecidableEq

/-- The question difficulty (App.tsx line 651). -/
inductive Difficulty where
  | standard | easy
deriving DecidableEq

/-- One entry of `scoreTracker.fragmentScores` (App.tsx lines 664-672). -/
structure ScoreEntry where
  correct : Nat
  incorrect : Nat
deriving DecidableEq

/-- The `scoreTracker` state (App.tsx lines 664-672). -/
structure ScoreTracker where
  correct : Nat
  incorrect : Nat
  fragmentScores : List (String × ScoreEntry)
deriving DecidableEq

/-- The initial (and reset) tracker value (App.tsx lines 668-672, 1347). -/
def initTracker : ScoreTracker := ⟨0, 0, []⟩

def sumCorrect (l : List (String × ScoreEntry)) : Nat :=
  (l.map (fun p => p.2.correct)).sum

def sumIncorrect (l : List (String × ScoreEntry)) : Nat :=
  (l.map (fun p => p.2.incorrect)).sum

/-- The tracker update performed by a submission (App.tsx lines 842-859):
nothing on a rate-limited result; otherwise the overall counter and the
selected part's entry (created at `{0, 0}` if missing) both gain 1 on the
appropriate side. -/
def scoreStep (t : ScoreTracker) (res : EvalResult) (selectedPart : String) :
    ScoreTracker :=
  if res.rate_limited then t
  else
    let d1 : Nat := if res.correct then 1 else 0
    let d0 : Nat := if res.correct then 0 else 1
    let e := (assocLookup t.fragmentScores selectedPart).getD ⟨0, 0⟩
    { correct := t.correct + d1,
      incorrect := t.incorrect + d0,
      fragmentScores :=
        assocUpsert t.fragmentScores selectedPart ⟨e.correct + d1, e.incorrect + d0⟩ }

/-- The pieces of the `Library` component's state that the session claims
are about (App.tsx lines 630-677).  Loading flags and audio state are
omitted; asynchronous results (`getParts`, `generateQuestions`, …) enter as
parameters of the transition functions. -/
structure LibState where
  language : String
  selectedText : String
  parts : List (String × String)
  selectedPart : String
  fragment : String
  questions : List String
  qIndex : Nat
  answer : String
  feedback : String
  highlight : Option HighlightMeta
  textMode : TextMode
  simpleCache : List (String × String)
  lastResult : LastResult
  difficulty : Difficulty
  scoreTracker : ScoreTracker
  showFinalResults : Bool
  questionCache : List (Int × List String)
  allQuestionsLoaded : Bool
deriving DecidableEq

/-- `questions[qIndex] || ''` (App.tsx line 679). -/
def currentQuestion (s : LibState) : String := (s.questions.get? s.qIndex).getD ""

/-- `Object.keys(parts).indexOf(part)`: position of a key in insertion
order, `-1` when absent. -/
def idxOfKey (parts : List (String × String)) (key : String) : Int :=
  match parts.findIdx? (fun p => p.1 = key) with
  | some i => (i : Int)
  | none => -1

/-- `` `${language}::${selectedText}::${selectedPart}` `` when both are
non-empty (App.tsx line 681). -/
def cacheKey (s : LibState) : String :=
  if s.selectedText ≠ "" ∧ s.selectedPart ≠ "" then
    s.language ++ "::" ++ s.selectedText ++ "::" ++ s.selectedPart
  else ""

/-- `handleEvaluate` (App.tsx lines 836-865) after `evaluate` resolves with
`res`: guard on a non-blank answer and a current question; set the feedback
and the highlight; on `rate_limited` stop with the distinct state; otherwise
update the tracker and set correct/incorrect. -/
def handleEvaluate (s : LibState) (res : EvalResult) : LibState :=
  if jsTrim s.answer.data = [] ∨ currentQuestion s = "" then s
  else
    let s1 := { s with
      feedback := res.feedback,
      highlight :=
        if res.correct_snippet ≠ "" then some ⟨res.correct_snippet, res.correct⟩
        else none }
    if res.rate_limited then { s1 with lastResult := .rateLimited }
    else
      { s1 with
        scoreTracker := scoreStep s.scoreTracker res s.selectedPart,
        lastResult := if res.correct then .correct else .incorrect }

/-- `handleNextQuestion` (App.tsx lines 867-873). -/
def handleNextQuestion (s : LibState) : LibState :=
  { s with
    qIndex := s.qIndex + 1,
    answer := "",
    feedback := "",
    highlight := none,
    lastResult := .idle }

/-- `handlePartChange` (App.tsx lines 894-917). -/
def handlePartChange (s : LibState) (part : String) : LibState :=
  let s1 := { s with
    selectedPart := part,
    fragment := (assocLookup s.parts part).getD "",
    textMode := .original,
    highlight := none,
    lastResult := .idle,
    answer := "",
    feedback := "",
    showFinalResults := false }
  let fragmentIndex := idxOfKey s.parts part
  match (if s.allQuestionsLoaded then assocLookup s.questionCache fragmentIndex
         else none) with
  | some qs => { s1 with questions := qs, qIndex := 0 }
  | none => { s1 with questions := [], qIndex := 0 }

/-- `handleAutoAdvance` (App.tsx lines 875-892). -/
def handleAutoAdvance (s : LibState) : LibState :=
  let isLastQuestion : Prop := (s.qIndex : Int) ≥ (s.questions.length : Int) - 1
  let partKeys := s.parts.map Prod.fst
  let currentPartIndex := idxOfKey s.parts s.selectedPart
  let isLastFragment : Prop := currentPartIndex ≥ (partKeys.length : Int) - 1
  if ¬ isLastQuestion then handleNextQuestion s
  else if ¬ isLastFragment then
    handlePartChange s ((partKeys.get? (currentPartIndex + 1).toNat).getD "")
  else { s with showFinalResults := true }

/-- The start-over button (App.tsx lines 1343-1354): hide the modal, reset
the tracker, and switch to the first part when one exists (an empty-string
key is falsy in the source's `if (firstPart)` guard). -/
def startOver (s : LibState) : LibState :=
  let s1 := { s with showFinalResults := false, scoreTracker := initTracker }
  match s.parts.head? with
  | some p => if p.1 = "" then s1 else handlePartChange s1 p.1
  | none => s1

/-- The `useEffect` on `selectedText` (App.tsx lines 712-746) after
`getParts` resolves with `newParts`: store the parts and, when a first part
exists, select it and reset the question area.  The question cache and the
`allQuestionsLoaded` flag are not touched by the source. -/
def selectTextEffect (s : LibState) (newParts : List (String × String)) : LibState :=
  let s1 := { s with parts := newParts }
  match newParts.head? with
  | some p =>
    if p.1 = "" then s1
    else
      { s1 with
        selectedPart := p.1,
        fragment := p.2,
        textMode := .original,
        questions := [],
        qIndex := 0,
        answer := "",
        feedback := "" }
  | none => s1

/-- Selecting a text (App.tsx line 1077 together with the effect of
lines 712-746); the empty selection clears the reading area. -/
def changeText (s : LibState) (name : String) (newParts : List (String × String)) :
    LibState :=
  if name = "" then
    { s with
      selectedText := "",
      parts := [],
      fragment := "",
      questions := [],
      selectedPart := "" }
  else selectTextEffect { s with selectedText := name } newParts

/-- The question source used by `loadQuestions` (App.tsx lines 768-770). -/
def loadSource (s : LibState) : String :=
  if s.textMode = .simple ∧ cacheKey s ≠ "" then
    (assocLookup s.simpleCache (cacheKey s)).getD s.fragment
  else s.fragment

/-- `loadQuestions` (App.tsx lines 754-794) after `generateQuestions`
resolves with `gen`: serve the cache when every guard of line 757 holds
(the flag, a cached entry for the current fragment index, no override text
— an empty-string override is falsy — and the requested mode equal to the
current difficulty); otherwise generate, set the difficulty, and cache the
result for the current fragment index when no override was given. -/
def loadQuestions (s : LibState) (mode : Difficulty) (overrideText : Option String)
    (gen : List String) : LibState :=
  let fragmentIndex := idxOfKey s.parts s.selectedPart
  if s.allQuestionsLoaded ∧ (assocLookup s.questionCache fragmentIndex).isSome ∧
      overrideText.getD "" = "" ∧ mode = s.difficulty then
    { s with
      questions := (assocLookup s.questionCache fragmentIndex).getD [],
      qIndex := 0,
      answer := "",
      feedback := "",
      highlight := none,
      lastResult := .idle }
  else
    let source := overrideText.getD (loadSource s)
    if source = "" then s
    else
      let s1 := { s with
        questions := gen,
        difficulty := mode,
        qIndex := 0,
        answer := "",
        feedback := "",
        highlight := none,
        lastResult := .idle }
      if overrideText = none then
        { s1 with questionCache := assocUpsert s.questionCache fragmentIndex gen }
      else s1

/-- `handleBatchGenerateQuestions` (App.tsx lines 796-834) after the batch
call resolves: replace the cache wholesale, set the flag, and load the
current fragment's entry when its index is non-negative and present. -/
def batchGenerate (s : LibState) (questions_by_fragment : List (Int × List String)) :
    LibState :=
  if s.selectedText = "" ∨ s.parts = [] then s
  else
    let s1 := { s with
      questionCache := questions_by_fragment,
      allQuestionsLoaded := true }
    let currentFragmentIndex := idxOfKey s.parts s.selectedPart
    if 0 ≤ currentFragmentIndex then
      match assocLookup questions_by_fragment currentFragmentIndex with
      | some qs =>
        { s1 with
          questions := qs,
          qIndex := 0,
          answer := "",
          feedback := "",
          highlight := none,
          lastResult := .idle }
      | none => s1
    else s1

/-- The class string of the result banner (App.tsx line 1259). -/
def resultBannerClass (r : LastResult) : String :=
  "result-banner " ++
    (match r with
     | .idle => "idle"
     | .correct => "correct"
     | .incorrect => "incorrect"
     | .rateLimited => "rateLimited")

/-- The advance button is rendered only after a correct or incorrect result
(App.tsx line 1299). -/
def showNextButton (r : LastResult) : Bool :=
  r = LastResult.correct || r = LastResult.incorrect

/-! ## Audio word tracking (App.tsx lines 1024-1045) -/

/-- The `findIndex` of `trackAudioProgress`: the first timing whose start
has been reached and that is either the last word or is followed by a word
whose start has not been reached.  End times are not consulted. -/
def findCurrentWord : List WordTiming → ℚ → Option Nat
  | [], _ => none
  | [x], t => if x.start ≤ t then some 0 else none
  | x :: y :: rest, t =>
    if x.start ≤ t ∧ t < y.start then some 0
    else (findCurrentWord (y :: rest) t).map (· + 1)

/-- The value `trackAudioProgress` stores into `currentWordIndex` on a tick
(with `-1` for "no word", as `findIndex` returns). -/
def trackAudioProgress (wordTimings : List WordTiming) (currentTime : ℚ)
    (currentWordIndex : Int) : Int :=
  if wordTimings = [] then currentWordIndex
  else
    match findCurrentWord wordTimings currentTime with
    | some i => (i : Int)
    | none => -1

/-- The claim's reading of "the word whose timing interval contains the
playback time". -/
def timingContains (w : WordTiming) (t : ℚ) : Prop :=
  w.start ≤ t ∧ t ≤ w.endTime

instance (w : WordTiming) (t : ℚ) : Decidable (timingContains w t) := by
  unfold timingContains; infer_instance

/-! ## Score-tracker lemmas -/

theorem assocLookup_upsert_self {κ ν : Type} [DecidableEq κ]
    (l : List (κ × ν)) (k : κ) (v : ν) :
    assocLookup (assocUpsert l k v) k = some v := by
  induction l with
  | nil => simp [assocUpsert, assocLookup]
  | cons p rest ih =>
    by_cases h : p.1 = k
    · simp [assocUpsert, assocLookup, h]
    · simp only [assocUpsert]
      rw [if_neg h]
      simp [assocLookup, h, ih]

theorem assocLookup_upsert_ne {κ ν : Type} [DecidableEq κ]
    (l : List (κ × ν)) (k k' : κ) (v : ν) (hne : k' ≠ k) :
    assocLookup (assocUpsert l k v) k' = assocLookup l k' := by
  induction l with
  | nil => simp [assocUpsert, assocLookup, Ne.symm hne]
  | cons p rest ih =>
    by_cases h : p.1 = k
    · simp [assocUpsert, assocLookup, h, Ne.symm hne]
    · simp only [assocUpsert]
      rw [if_neg h]
      by_cases h' : p.1 = k'
      · simp [assocLookup, h']
      · simp [assocLookup, h', ih]

/-- Updating one part's entry by `(a, b)` on top of its current value moves
the per-fragment sums by exactly `(a, b)`. -/
theorem sum_upsert (l : List (String × ScoreEntry)) (k : String) (a b : Nat) :
    sumCorrect (assocUpsert l k
        ⟨((assocLookup l k).getD ⟨0, 0⟩).correct + a,
         ((assocLookup l k).getD ⟨0, 0⟩).incorrect + b⟩) = sumCorrect l + a ∧
    sumIncorrect (assocUpsert l k
        ⟨((assocLookup l k).getD ⟨0, 0⟩).correct + a,
         ((assocLookup l k).getD ⟨0, 0⟩).incorrect + b⟩) = sumIncorrect l + b := by
  induction l with
  | nil => simp [assocUpsert, assocLookup, sumCorrect, sumIncorrect]
  | cons p rest ih =>
    by_cases h : p.1 = k
    · simp only [assocUpsert, assocLookup, h, if_pos]
      simp [sumCorrect, sumIncorrect]
      omega
    · simp only [assocUpsert, assocLookup]
      rw [if_neg h, if_neg h]
      obtain ⟨ih1, ih2⟩ := ih
      simp only [sumCorrect, sumIncorrect, List.map_cons, List.sum_cons] at ih1 ih2 ⊢
      omega

/-- The invariant claimed for the tracker: the overall counters equal the
sums of the per-fragment entries. -/
def trackerInv (t : ScoreTracker) : Prop :=
  t.correct = sumCorrect t.fragmentScores ∧
  t.incorrect = sumIncorrect t.fragmentScores

theorem trackerInv_init : trackerInv initTracker := by
  constructor <;> rfl

theorem trackerInv_scoreStep {t : ScoreTracker} (res : EvalResult)
    (part : String) (h : trackerInv t) : trackerInv (scoreStep t res part) := by
  unfold scoreStep
  by_cases hr : res.rate_limited
  · simpa [hr] using h
  · simp only [hr, if_neg, Bool.false_eq_true, not_false_eq_true]
    obtain ⟨h1, h2⟩ := h
    obtain ⟨hs1, hs2⟩ := sum_upsert t.fragmentScores part
      (if res.correct then 1 else 0) (if res.correct then 0 else 1)
    exact ⟨by simp only [hs1]; omega, by simp only [hs2]; omega⟩

/-- The tracker-affecting session events of the claim: answer submissions
(arbitrary evaluation results against the currently selected part) and the
start-over reset. -/
inductive ScoreEvent where
  | submit (res : EvalResult) (selectedPart : String)
  | reset

/-- How each event acts on the tracker: a submission acts through the update
of `handleEvaluate` (App.tsx lines 842-859) and start-over restores the
initial tracker (App.tsx line 1347). -/
def applyScoreEvent (t : ScoreTracker) : ScoreEvent → ScoreTracker
  | .submit res part => scoreStep t res part
  | .reset => initTracker

theorem trackerInv_foldl (events : List ScoreEvent) :
    ∀ t : ScoreTracker, trackerInv t → trackerInv (events.foldl applyScoreEvent t) := by
  induction events with
  | nil => intro t h; simpa using h
  | cons e rest ih =>
    intro t h
    simp only [List.foldl_cons]
    refine ih _ ?_
    cases e with
    | submit res part => exact trackerInv_scoreStep res part h
    | reset => exact trackerInv_init

/-! ## Audio word-index lemmas -/

/-- Under word-level well-formedness and contiguity, start times are
monotone from the head. -/
theorem start_zero_le {ts : List WordTiming}
    (hwf : ∀ w ∈ ts, w.start ≤ w.endTime)
    (hcont : ∀ (j : Nat) (hj : j + 1 < ts.length),
      (ts.get ⟨j, Nat.lt_of_succ_lt hj⟩).endTime = (ts.get ⟨j + 1, hj⟩).start) :
    ∀ (k : Nat) (hk : k < ts.length) (h0 : 0 < ts.length),
      (ts.get ⟨0, h0⟩).start ≤ (ts.get ⟨k, hk⟩).start := by
  intro k
  induction k with
  | zero => intro hk h0; exact le_refl _
  | succ j ih =>
    intro hk h0
    calc (ts.get ⟨0, h0⟩).start
        ≤ (ts.get ⟨j, Nat.lt_of_succ_lt hk⟩).start := ih _ h0
      _ ≤ (ts.get ⟨j, Nat.lt_of_succ_lt hk⟩).endTime :=
          hwf _ (List.get_mem ts _ _)
      _ = (ts.get ⟨j + 1, hk⟩).start := hcont j hk

/-- With well-formed, contiguous timings, the scanned index is exactly the
word whose `[start, end)` interval contains the playback time. -/
theorem findCurrentWord_of_contains :
    ∀ (ts : List WordTiming) (t : ℚ) (i : Nat)
      (hwf : ∀ w ∈ ts, w.start ≤ w.endTime)
      (hcont : ∀ (j : Nat) (hj : j + 1 < ts.length),
        (ts.get ⟨j, Nat.lt_of_succ_lt hj⟩).endTime = (ts.get ⟨j + 1, hj⟩).start)
      (hi : i < ts.length)
      (_ : (ts.get ⟨i, hi⟩).start ≤ t)
      (_ : t < (ts.get ⟨i, hi⟩).endTime),
      findCurrentWord ts t = some i := by
  intro ts
  induction ts with
  | nil => intro t i _ _ hi _ _; simp at hi
  | cons x rest ihts =>
    intro t i hwf hcont hi h1 h2
    cases rest with
    | nil =>
      cases i with
      | zero => rw [findCurrentWord, if_pos (by simpa using h1)]
      | succ j => simp at hi
    | cons y rest' =>
      cases i with
      | zero =>
        have hys : x.endTime = y.start := by
          have := hcont 0 (by simp)
          simpa using this
        rw [findCurrentWord, if_pos ⟨by simpa using h1, by rw [← hys]; simpa using h2⟩]
      | succ j =>
        have hsj : y.start ≤ t := by
          have hmono := @start_zero_le (y :: rest')
            (fun w hw => hwf w (by simp [hw]))
            (fun j' hj' => by
              have := hcont (j' + 1) (by simpa using Nat.succ_lt_succ hj')
              simpa using this)
            j (by simpa using hi) (by simp)
          refine le_trans (by simpa using hmono) ?_
          simpa using h1
        have hcondn : ¬ (x.start ≤ t ∧ t < y.start) := by
          rintro ⟨-, hlt⟩
          exact absurd hsj (not_le.mpr hlt)
        rw [findCurrentWord, if_neg hcondn]
        have := ihts t j
          (fun w hw => hwf w (by simp [hw]))
          (fun j' hj' => by
            have := hcont (j' + 1) (by simpa using Nat.succ_lt_succ hj')
            simpa using this)
          (by simpa using hi)
          (by simpa using h1)
          (by simpa using h2)
        rw [this]
        rfl

/-! ## Rendering support lemmas -/

theorem plainRender_nil (lang : Lang) : plainRender lang [] = [] := by
  cases lang <;> rfl

/-- When the snippet search fails, `buildFragmentHtml` renders exactly the
plain (escape, line-break, sequence-word) pipeline. -/
theorem buildFragmentHtml_of_not_found (text : List Char) (lang : Lang)
    (h : HighlightMeta) (hidx : highlightIndex text h.text.data = none) :
    buildFragmentHtml text lang (some h) false [] (-1) = plainRender lang text := by
  by_cases h0 : text = []
  · rw [buildFragmentHtml, if_pos h0, h0, plainRender_nil]
  · rw [buildFragmentHtml, if_neg h0]
    simp only [ne_eq, Bool.false_eq_true, if_false, List.map_nil]
    rw [if_neg (by simp)]
    unfold answerHtml plainRender
    by_cases ht : h.text = ""
    · simp [ht]
    · simp only [ht, if_neg, ite_false, Bool.false_eq_true]
      rw [hidx]

theorem plainRender_no_hlCorrect (lang : Lang) (text : List Char) :
    ¬ occursIn hlCorrectTag (plainRender lang text) :=
  seg_not_occursIn (by decide) (by decide) tagsOk_plainTags seg_plainRender

theorem plainRender_no_hlWrong (lang : Lang) (text : List Char) :
    ¬ occursIn hlWrongTag (plainRender lang text) :=
  seg_not_occursIn (by decide) (by decide) tagsOk_plainTags seg_plainRender

/-! ## Concrete demonstration states used by counterexamples -/

/-- A session state as it stands after selecting text `"A"` with two parts
and no questions yet. -/
def demoState : LibState :=
  { language := "Latvian"
    selectedText := "A"
    parts := [("Part 1", "a1"), ("Part 2", "a2")]
    selectedPart := "Part 1"
    fragment := "a1"
    questions := []
    qIndex := 0
    answer := ""
    feedback := ""
    highlight := none
    textMode := .original
    simpleCache := []
    lastResult := .idle
    difficulty := .standard
    scoreTracker := initTracker
    showFinalResults := false
    questionCache := []
    allQuestionsLoaded := false }

/-! ## The claims -/

/-- C1: for every answer submission whose evaluation result has
`rate_limited = true`, `handleEvaluate` leaves the `ScoreTracker` completely
unchanged — the overall correct and incorrect counters and every
per-fragment counter keep their values (the whole tracker is equal). -/
theorem claim1_rate_limited_leaves_tracker (s : LibState) (res : EvalResult)
    (h : res.rate_limited = true) :
    (handleEvaluate s res).scoreTracker = s.scoreTracker := by
  unfold handleEvaluate
  by_cases hg : jsTrim s.answer.data = [] ∨ currentQuestion s = ""
  · rw [if_pos hg]
  · rw [if_neg hg]
    simp [h]

def sWitEval : LibState :=
  { demoState with questions := ["Q1"], answer := "mana atbilde" }

def resWitRL : EvalResult := ⟨"fb", "snip", false, true⟩

def resWitOK : EvalResult := ⟨"fb", "snip", true, false⟩

theorem claim1_witness :
    resWitRL.rate_limited = true ∧
    (handleEvaluate sWitEval resWitRL).scoreTracker = sWitEval.scoreTracker :=
  ⟨by decide, claim1_rate_limited_leaves_tracker sWitEval resWitRL (by decide)⟩

/-- C2: for every answer submission (non-blank answer, a question shown)
whose result has `correct = true` and `rate_limited` unset, `handleEvaluate`
adds exactly 1 to the overall correct counter and to the selected part's
correct counter, and leaves the overall incorrect counter, the selected
part's incorrect counter, and every other part's entry unchanged. -/
theorem claim2_correct_increments_counters (s : LibState) (res : EvalResult)
    (hg1 : jsTrim s.answer.data ≠ []) (hg2 : currentQuestion s ≠ "")
    (hc : res.correct = true) (hr : res.rate_limited = false) :
    (handleEvaluate s res).scoreTracker.correct = s.scoreTracker.correct + 1 ∧
    (handleEvaluate s res).scoreTracker.incorrect = s.scoreTracker.incorrect ∧
    assocLookup (handleEvaluate s res).scoreTracker.fragmentScores s.selectedPart =
      some ⟨((assocLookup s.scoreTracker.fragmentScores s.selectedPart).getD
              ⟨0, 0⟩).correct + 1,
            ((assocLookup s.scoreTracker.fragmentScores s.selectedPart).getD
              ⟨0, 0⟩).incorrect⟩ ∧
    (∀ p : String, p ≠ s.selectedPart →
      assocLookup (handleEvaluate s res).scoreTracker.fragmentScores p =
        assocLookup s.scoreTracker.fragmentScores p) := by
  have hstep : (handleEvaluate s res).scoreTracker =
      scoreStep s.scoreTracker res s.selectedPart := by
    unfold handleEvaluate
    rw [if_neg (by push_neg; exact ⟨hg1, hg2⟩)]
    simp [hr]
  rw [hstep]
  unfold scoreStep
  rw [if_neg (by simp [hr])]
  simp only [hc, if_pos, Nat.add_zero]
  refine ⟨by trivial, by trivial, ?_, ?_⟩
  · rw [assocLookup_upsert_self]
  · intro p hp
    rw [assocLookup_upsert_ne _ _ _ _ hp]

theorem claim2_witness :
    jsTrim sWitEval.answer.data ≠ [] ∧ currentQuestion sWitEval ≠ "" ∧
    (handleEvaluate sWitEval resWitOK).scoreTracker.correct =
      sWitEval.scoreTracker.correct + 1 :=
  ⟨by decide, by decide,
    (claim2_correct_increments_counters sWitEval resWitOK (by decide) (by decide)
      (by decide) (by decide)).1⟩

/-- C3: in every `ScoreTracker` state reachable from the initial state by
any sequence of evaluation updates and start-over resets, the overall
correct total equals the sum of the per-fragment correct counts and the
overall incorrect total equals the sum of the per-fragment incorrect
counts. -/
theorem claim3_tracker_totals_invariant (events : List ScoreEvent) :
    trackerInv (events.foldl applyScoreEvent initTracker) :=
  trackerInv_foldl events initTracker trackerInv_init

theorem handlePartChange_basic (s : LibState) (part : String) :
    (handlePartChange s part).selectedPart = part ∧
    (handlePartChange s part).qIndex = 0 ∧
    (handlePartChange s part).showFinalResults = false ∧
    (handlePartChange s part).scoreTracker = s.scoreTracker := by
  unfold handlePartChange
  by_cases hl : s.allQuestionsLoaded
  all_goals rcases hq : assocLookup s.questionCache (idxOfKey s.parts part) with - | qs
  all_goals simp [hl, hq]

/-- C4: the advance operation moves to the next question when more remain
in the current set; otherwise moves to the next part with the question
index reset to 0 when more parts remain; otherwise enters the final-results
state, whose displayed overall score (`scoreTracker.correct` out of
`correct + incorrect`) equals the sums of the per-fragment scores; and the
start-over action resets all counters to zero and returns to the first
fragment with question index 0.  The tracker-invariant hypothesis holds in
every reachable state (claim C3). -/
theorem claim4_advance_and_start_over (s : LibState) (i : Nat)
    (hidx : idxOfKey s.parts s.selectedPart = (i : Int))
    (hinv : trackerInv s.scoreTracker) :
    (s.qIndex + 1 < s.questions.length →
      (handleAutoAdvance s).qIndex = s.qIndex + 1 ∧
      (handleAutoAdvance s).selectedPart = s.selectedPart ∧
      (handleAutoAdvance s).showFinalResults = s.showFinalResults) ∧
    (s.questions.length ≤ s.qIndex + 1 → i + 1 < s.parts.length →
      (handleAutoAdvance s).selectedPart =
        ((s.parts.map Prod.fst).get? (i + 1)).getD "" ∧
      (handleAutoAdvance s).qIndex = 0 ∧
      (handleAutoAdvance s).showFinalResults = false) ∧
    (s.questions.length ≤ s.qIndex + 1 → i + 1 = s.parts.length →
      handleAutoAdvance s = { s with showFinalResults := true } ∧
      s.scoreTracker.correct = sumCorrect s.scoreTracker.fragmentScores ∧
      s.scoreTracker.correct + s.scoreTracker.incorrect =
        sumCorrect s.scoreTracker.fragmentScores +
          sumIncorrect s.scoreTracker.fragmentScores) ∧
    (∀ (k v : String) (rest : List (String × String)),
      s.parts = (k, v) :: rest → k ≠ "" →
      (startOver s).scoreTracker = initTracker ∧
      (startOver s).selectedPart = k ∧
      (startOver s).qIndex = 0 ∧
      (startOver s).showFinalResults = false) := by
  refine ⟨?_, ?_, ?_, ?_⟩
  · intro hq
    have hcond : ¬ ((s.qIndex : Int) ≥ (s.questions.length : Int) - 1) := by
      omega
    simp only [handleAutoAdvance]
    rw [if_pos (by exact fun h => hcond h)]
    unfold handleNextQuestion
    exact ⟨rfl, rfl, rfl⟩
  · intro hq hparts
    have hcond : (s.qIndex : Int) ≥ (s.questions.length : Int) - 1 := by omega
    have hfrag : ¬ (idxOfKey s.parts s.selectedPart ≥
        ((s.parts.map Prod.fst).length : Int) - 1) := by
      rw [hidx]
      simp only [List.length_map]
      omega
    simp only [handleAutoAdvance]
    rw [if_neg (by simpa using hcond), if_pos (by exact fun h => hfrag h)]
    have hnext : ((idxOfKey s.parts s.selectedPart + 1).toNat) = i + 1 := by
      rw [hidx]
      omega
    rw [hnext]
    obtain ⟨ha, hb, hc, -⟩ := handlePartChange_basic s
      (((s.parts.map Prod.fst).get? (i + 1)).getD "")
    exact ⟨ha, hb, hc⟩
  · intro hq hparts
    have hcond : (s.qIndex : Int) ≥ (s.questions.length : Int) - 1 := by omega
    have hfrag : idxOfKey s.parts s.selectedPart ≥
        ((s.parts.map Prod.fst).length : Int) - 1 := by
      rw [hidx]
      simp only [List.length_map]
      omega
    simp only [handleAutoAdvance]
    rw [if_neg (by simpa using hcond), if_neg (by simpa using hfrag)]
    exact ⟨rfl, hinv.1, by rw [← hinv.1, ← hinv.2]⟩
  · intro k v rest hp hk
    have hs : startOver s =
        handlePartChange { s with showFinalResults := false, scoreTracker := initTracker } k := by
      unfold startOver
      rw [hp]
      simp [hk]
    obtain ⟨ha, hb, hc, hd⟩ := handlePartChange_basic
      { s with showFinalResults := false, scoreTracker := initTracker } k
    rw [hs]
    exact ⟨hd.trans rfl, ha, hb, hc⟩

/-- A concrete session mid-way through the first part's questions. -/
def sW4 : LibState :=
  { demoState with questions := ["Q1", "Q2"], qIndex := 0 }

theorem claim4_witness :
    (handleAutoAdvance sW4).qIndex = sW4.qIndex + 1 ∧
    (handleAutoAdvance sW4).selectedPart = sW4.selectedPart ∧
    (handleAutoAdvance sW4).showFinalResults = sW4.showFinalResults :=
  (claim4_advance_and_start_over sW4 0 (by decide) ⟨rfl, rfl⟩).1 (by decide)

/-! ### C5: text change versus the question cache -/

/-- Text "A" batch-generates questions for its two parts. -/
def c5AfterBatch : LibState := batchGenerate demoState [(0, ["QA0"]), (1, ["QA1"])]

/-- Then the user selects text "B", whose parts load. -/
def c5AfterTextChange : LibState :=
  changeText c5AfterBatch "B" [("Part 1", "b1"), ("Part 2", "b2")]

/-- Then the user switches to Part 2 of text "B". -/
def c5Final : LibState := handlePartChange c5AfterTextChange "Part 2"

/-- C5 (refuted — code bug): changing the selected text never clears the
question cache or the all-questions-loaded flag (first conjunct, for every
state), and consequently a part switch in the new text serves a question
set cached for the previous text: after batch-generating for text "A" and
selecting text "B", switching to Part 2 shows text B's fragment `"b2"`
together with text A's cached questions `["QA1"]`. -/
theorem claim5_text_change_keeps_question_cache :
    (∀ (s : LibState) (name : String) (newParts : List (String × String)),
      (changeText s name newParts).questionCache = s.questionCache ∧
      (changeText s name newParts).allQuestionsLoaded = s.allQuestionsLoaded) ∧
    c5AfterBatch.selectedText = "A" ∧
    assocLookup c5AfterBatch.questionCache 1 = some ["QA1"] ∧
    c5AfterBatch.allQuestionsLoaded = true ∧
    c5AfterTextChange.selectedText = "B" ∧
    c5AfterTextChange.allQuestionsLoaded = true ∧
    assocLookup c5AfterTextChange.questionCache 1 = some ["QA1"] ∧
    c5Final.selectedText = "B" ∧
    c5Final.selectedPart = "Part 2" ∧
    c5Final.fragment = "b2" ∧
    c5Final.questions = ["QA1"] := by
  refine ⟨?_, by decide, by decide, by decide, by decide, by decide, by decide,
    by decide, by decide, by decide, by decide⟩
  intro s name newParts
  unfold changeText selectTextEffect
  by_cases hn : name = ""
  · simp [hn]
  · simp only [hn, if_neg, ite_false]
    cases hh : newParts.head? with
    | none => simp
    | some p =>
      by_cases hp : p.1 = "" <;> simp [hp]

/-! ### C6: the question cache and difficulty -/

/-- Batch generation at difficulty `standard` fills the cache. -/
def c6AfterBatch : LibState := batchGenerate demoState [(0, ["SQ0"]), (1, ["SQ1"])]

/-- A regeneration at difficulty `easy` for the current part; the session's
difficulty becomes `easy`, but Part 2's cached entry still holds the
`standard` set. -/
def c6AfterLoad : LibState := loadQuestions c6AfterBatch .easy none ["EQ0"]

/-- Switching to Part 2 serves the `standard`-generated cache entry even
though the session difficulty is `easy`. -/
def c6Final : LibState := handlePartChange c6AfterLoad "Part 2"

/-- C6 is refuted on this trace: the entry for fragment index 1 was cached
by the batch call made at difficulty `standard`; after the difficulty
changes to `easy` the entry is still served by the part switch, so a cached
set is not invalidated (and is reused) when the difficulty it was generated
under differs from the current one. -/
theorem claim6_counterexample :
    c6AfterBatch.difficulty = .standard ∧
    assocLookup c6AfterBatch.questionCache 1 = some ["SQ1"] ∧
    c6AfterLoad.difficulty = .easy ∧
    assocLookup c6AfterLoad.questionCache 1 = some ["SQ1"] ∧
    c6Final.difficulty = .easy ∧
    c6Final.questions = ["SQ1"] := by
  decide

/-- C6 amended: question sets are cached per fragment index only, with no
difficulty in the key.  `loadQuestions` bypasses the cache when the
requested difficulty differs from the session's current difficulty setting
and generates fresh questions; `handlePartChange`, however, serves any
cached entry for the target fragment index regardless of the difficulty it
was generated under, leaving the session difficulty unchanged. -/
theorem claim6_cache_per_index_amended (s : LibState) (part : String)
    (qs gen : List String) (mode : Difficulty)
    (h1 : s.allQuestionsLoaded = true)
    (h2 : assocLookup s.questionCache (idxOfKey s.parts part) = some qs)
    (h3 : mode ≠ s.difficulty)
    (h4 : loadSource s ≠ "") :
    ((handlePartChange s part).questions = qs ∧
     (handlePartChange s part).difficulty = s.difficulty) ∧
    ((loadQuestions s mode none gen).questions = gen ∧
     (loadQuestions s mode none gen).difficulty = mode) := by
  constructor
  · unfold handlePartChange
    simp [h1, h2]
  · unfold loadQuestions
    rw [if_neg (fun hcond => h3 hcond.2.2.2)]
    simp only [Option.getD_none]
    rw [if_neg h4]
    simp

theorem claim6_witness :
    (handlePartChange c6AfterLoad "Part 2").questions = ["SQ1"] ∧
    (handlePartChange c6AfterLoad "Part 2").difficulty = c6AfterLoad.difficulty :=
  (claim6_cache_per_index_amended c6AfterLoad "Part 2" ["SQ1"] ["G"] .standard
    (by decide) (by decide) (by decide) (by decide)).1

/-! ### C7: the rate-limited UI state -/

/-- A session with a question shown, an answer typed, and an English
fragment on screen. -/
def c7State : LibState :=
  { demoState with
    questions := ["Q1"],
    answer := "mana atbilde",
    fragment := "The cat sat on the mat." }

/-- A rate-limited evaluation result that carries a snippet. -/
def c7Res : EvalResult := ⟨"feedback", "sat on the mat", false, true⟩

def c7After : LibState := handleEvaluate c7State c7Res

/-- C7 is refuted: `handleEvaluate` sets the highlight from
`correct_snippet` before checking `rate_limited` (App.tsx line 841), so
this rate-limited submission attaches an incorrect-colored (`hl-wrong`)
highlight to the displayed fragment even though the UI is in the distinct
rate-limited state. -/
theorem claim7_counterexample :
    c7Res.rate_limited = true ∧
    c7After.lastResult = .rateLimited ∧
    c7After.highlight = some ⟨"sat on the mat", false⟩ ∧
    occursIn hlWrongTag
      (buildFragmentHtml c7After.fragment.data .English c7After.highlight false [] (-1)) := by
  exact ⟨by decide, by decide, by decide, occursIn_of_occursB (by decide)⟩

/-- C7 amended: on a rate-limited result the UI does enter the distinct
rate-limited state (the banner class is `rateLimited`, the advance button
is not offered, the tracker is untouched), but the snippet highlight is set
before the rate-limited check: the highlight is absent if and only if the
result's `correct_snippet` is empty. -/
theorem claim7_rate_limited_ui_amended (s : LibState) (res : EvalResult)
    (h : res.rate_limited = true)
    (hg1 : jsTrim s.answer.data ≠ []) (hg2 : currentQuestion s ≠ "") :
    (handleEvaluate s res).lastResult = .rateLimited ∧
    (handleEvaluate s res).scoreTracker = s.scoreTracker ∧
    showNextButton (handleEvaluate s res).lastResult = false ∧
    resultBannerClass (handleEvaluate s res).lastResult =
      "result-banner rateLimited" ∧
    ((handleEvaluate s res).highlight = none ↔ res.correct_snippet = "") := by
  unfold handleEvaluate
  rw [if_neg (by push_neg; exact ⟨hg1, hg2⟩)]
  simp only [h, if_pos, ite_true]
  refine ⟨by trivial, by trivial, by decide, by trivial, ?_⟩
  by_cases hcs : res.correct_snippet = "" <;> simp [hcs]

theorem claim7_witness :
    (handleEvaluate sWitEval resWitRL).lastResult = .rateLimited ∧
    showNextButton (handleEvaluate sWitEval resWitRL).lastResult = false :=
  ⟨(claim7_rate_limited_ui_amended sWitEval resWitRL (by decide) (by decide)
      (by decide)).1,
   (claim7_rate_limited_ui_amended sWitEval resWitRL (by decide) (by decide)
      (by decide)).2.2.1⟩

/-! ### C8: answer-snippet highlighting -/

/-- C8 counterexample: the claim says a failed search always retries with
the punctuation-stripped snippet, but the code retries only when at least 3
characters remain (App.tsx line 594).  For fragment `"He said no"` and
snippet `"no!!!"`, the stripped snippet `"no"` occurs at index 8 (so the
claimed algorithm would mark it), yet the code renders the fragment with no
highlight markup at all. -/
theorem claim8_counterexample :
    jsTrim "no!!!".data = "no!!!".data ∧
    stripTrailPunct ("no!!!".data.map jsLower) = "no".data ∧
    jsIndexOf ("He said no".data.map jsLower) ("no".data.map jsLower) = some 8 ∧
    buildFragmentHtml "He said no".data .English (some ⟨"no!!!", true⟩)
      false [] (-1) = "He said no".data := by
  decide

/-- C8 amended: the snippet is located by case-insensitive substring search;
if absent, the search is retried with trailing punctuation stripped from the
snippet, provided at least 3 characters remain; if still not found the
fragment is rendered with no highlight markup (and, being a total function,
the renderer cannot throw).  The snippet `"sat on the mat"` in
`"The cat sat on the mat."` is marked exactly (also when given in a
different case; a snippet with trailing punctuation marks the span of the
unstripped snippet's length). -/
theorem claim8_highlight_amended :
    (buildFragmentHtml "The cat sat on the mat.".data .English
        (some ⟨"sat on the mat", true⟩) false [] (-1) =
      "The cat <span class=\"hl-correct\">sat on the mat</span>.".data) ∧
    (buildFragmentHtml "The cat sat on the mat.".data .English
        (some ⟨"SAT ON THE MAT", true⟩) false [] (-1) =
      "The cat <span class=\"hl-correct\">sat on the mat</span>.".data) ∧
    (buildFragmentHtml "The cat sat on the mat.".data .English
        (some ⟨"sat on the mat...!", true⟩) false [] (-1) =
      "The cat <span class=\"hl-correct\">sat on the mat.</span>".data) ∧
    (∀ (text : List Char) (lang : Lang) (h : HighlightMeta),
      highlightIndex text h.text.data = none →
      buildFragmentHtml text lang (some h) false [] (-1) = plainRender lang text ∧
      ¬ occursIn hlCorrectTag
          (buildFragmentHtml text lang (some h) false [] (-1)) ∧
      ¬ occursIn hlWrongTag
          (buildFragmentHtml text lang (some h) false [] (-1))) := by
  refine ⟨by decide, by decide, by decide, ?_⟩
  intro text lang h hidx
  have he := buildFragmentHtml_of_not_found text lang h hidx
  refine ⟨he, ?_, ?_⟩
  · rw [he]; exact plainRender_no_hlCorrect lang text
  · rw [he]; exact plainRender_no_hlWrong lang text

theorem claim8_witness :
    highlightIndex "Hello there".data "xyz".data = none ∧
    buildFragmentHtml "Hello there".data .English (some ⟨"xyz", true⟩)
      false [] (-1) = plainRender .English "Hello there".data :=
  ⟨by decide,
    (claim8_highlight_amended.2.2.2 "Hello there".data .English ⟨"xyz", true⟩
      (by decide)).1⟩

/-! ### C9: audio word tracking -/

/-- Word timings with a gap: word "a" spans `[0, 2]`, word "b" spans
`[4, 6]` (seconds). -/
def c9Timings : List WordTiming := [⟨"a", 0, 2⟩, ⟨"b", 4, 6⟩]

/-- C9 is refuted: on a tick at time 3 (inside the gap) the code selects
word 0, yet no word's timing interval contains 3 — the scanner compares
against the next word's start, not the word's own end. -/
theorem claim9_counterexample :
    trackAudioProgress c9Timings (3 : ℚ) (-1) = 0 ∧
    (∀ w ∈ c9Timings, ¬ timingContains w (3 : ℚ)) := by
  decide

/-- C9 amended: the selected word is the first whose start has been reached
and whose successor's start (if any) has not; end times are ignored.  When
the timings are well-formed (`start ≤ end`) and contiguous (each word's end
equals the next word's start), this coincides with interval containment:
the word whose `[start, end)` interval contains the playback time is
selected. -/
theorem claim9_word_tracking_amended (ts : List WordTiming) (t : ℚ) (i : Nat)
    (hwf : ∀ w ∈ ts, w.start ≤ w.endTime)
    (hcont : ∀ (j : Nat) (hj : j + 1 < ts.length),
      (ts.get ⟨j, Nat.lt_of_succ_lt hj⟩).endTime = (ts.get ⟨j + 1, hj⟩).start)
    (hi : i < ts.length)
    (h1 : (ts.get ⟨i, hi⟩).start ≤ t)
    (h2 : t < (ts.get ⟨i, hi⟩).endTime) :
    trackAudioProgress ts t (-1) = (i : Int) ∧
    timingContains (ts.get ⟨i, hi⟩) t := by
  have hne : ts ≠ [] := by
    intro h
    rw [h] at hi
    simp at hi
  refine ⟨?_, h1, le_of_lt h2⟩
  unfold trackAudioProgress
  rw [if_neg hne, findCurrentWord_of_contains ts t i hwf hcont hi h1 h2]

/-- Contiguous word timings: "a" spans `[0, 2]`, "b" spans `[2, 4]`. -/
def c9ContigTimings : List WordTiming := [⟨"a", 0, 2⟩, ⟨"b", 2, 4⟩]

theorem claim9_witness :
    trackAudioProgress c9ContigTimings (3 : ℚ) (-1) = (1 : Int) ∧
    timingContains (c9ContigTimings.get ⟨1, by decide⟩) (3 : ℚ) :=
  claim9_word_tracking_amended c9ContigTimings 3 1 (by decide)
    (by
      intro j hj
      cases j with
      | zero => rfl
      | succ k =>
        rw [show c9ContigTimings.length = 2 from rfl] at hj
        exact absurd hj (by omega))
    (by decide) (by decide) (by decide)

/-! ### C10: HTML-escaping safety of the fragment renderer -/

/-- C10: for every input text, highlight snippet, language, uppercase
toggle and word-timing state, the string returned by `buildFragmentHtml`
satisfies `Seg allowedTags`: it is a concatenation of markup-free
characters (every `&`, `<`, `>` of the input having been escaped before any
markup was assembled) and of the six span/br fragments the function itself
inserts.  In particular every `<` in the output begins one of the
function's own tags, so input text can never inject markup. -/
theorem claim10_no_markup_injection (text : List Char) (lang : Lang)
    (highlight : Option HighlightMeta) (uppercase : Bool)
    (wordTimings : List WordTiming) (currentWordIndex : Int) :
    Seg allowedTags
      (buildFragmentHtml text lang highlight uppercase wordTimings currentWordIndex) := by
  simp only [buildFragmentHtml]
  split
  · exact Seg.nil
  · split
    · exact seg_newlineToBr (by decide) no_newline_allowedTags
        (seg_buildAudio (by decide) (by decide) _ 0 currentWordIndex)
    · exact seg_answerHtml

end ReadApp
